import Mathlib

/-!
Verification of the departure aggregation and display logic of the
mini_metro_display repository (src/utils.py and src/mini_metro_display.py).

Embedding conventions:
* Dates are represented by a day number (Nat): the Python code parses a
  service_date string "YYYY-MM-DD" into a date and the only operations on it
  are adding one day and comparison, both faithfully represented on day
  numbers.  A parsed clock time "H:MM:SS" is a triple (hour, minute, second)
  of naturals.
* A Python datetime value is a DateTime record (day, hour, minute, second);
  datetime comparison is comparison of the total second count.
* Fallible Python operations (datetime.replace and datetime.strptime raise
  ValueError on out-of-range fields, the gtfs_route_type_to_string dict
  lookup raises KeyError) are modelled with Option; a none propagates like
  an uncaught exception.
* Network calls (get_departures_for_stop_id, get_nearby_stops, the geocoder)
  return data from external services; they are modelled as parameters that
  supply the fetched data.
* The floating point haversine function (sin/cos/atan2/sqrt) is abstracted
  as a parameter dist of type Rat -> Rat -> Rat -> Rat -> Rat taking the four
  arguments (lat1, lon1, lat2, lon2) exactly as the source passes them; the
  aggregation code only compares its results, so every theorem below holds
  for the concrete floating point haversine as well.
-/

/-- Clock time parsed from an "H:MM:SS" string by map(int, s.split(":")). -/
structure ArrTime where
  hour : Nat
  minute : Nat
  second : Nat
deriving Repr, DecidableEq

/-- Python datetime at second resolution; day counts days since some epoch. -/
structure DateTime where
  day : Nat
  hour : Nat
  minute : Nat
  second : Nat
deriving Repr, DecidableEq

/-- Total seconds of a DateTime; Python datetime comparison agrees with
comparison of this count for the in-range values the code constructs. -/
def DateTime.toSeconds (t : DateTime) : Nat :=
  t.day * 86400 + t.hour * 3600 + t.minute * 60 + t.second

/-- Embedding of utils.get_corrected_datetime: parse the service date and the
clock time, roll an hour above 23 over to the next day, then
datetime.replace(hour, minute, second).  replace raises ValueError (none)
when minute or second is out of range; the corrected hour is always in
range. -/
def get_corrected_datetime (service_date : Nat) (arrival_time : ArrTime) :
    Option DateTime :=
  let day := if arrival_time.hour > 23 then service_date + 1 else service_date
  let hour := if arrival_time.hour > 23 then arrival_time.hour % 24
    else arrival_time.hour
  if arrival_time.minute ≤ 59 ∧ arrival_time.second ≤ 59 then
    some ⟨day, hour, arrival_time.minute, arrival_time.second⟩
  else
    none

/-- Embedding of datetime.strptime(f"{service_date} {arrival_time}",
"%Y-%m-%d %H:%M:%S") as used in the closer-stop update branch of
get_next_departures_for_stop_list: %H requires hour at most 23 and the
resulting datetime requires minute and second at most 59; no day rollover. -/
def strptime_date_time (service_date : Nat) (arrival_time : ArrTime) :
    Option DateTime :=
  if arrival_time.hour ≤ 23 ∧ arrival_time.minute ≤ 59 ∧
      arrival_time.second ≤ 59 then
    some ⟨service_date, arrival_time.hour, arrival_time.minute,
      arrival_time.second⟩
  else
    none

/-- Transit stop as returned by the stops endpoint: id, stop_name and
geometry.coordinates, a [longitude, latitude] pair. -/
structure Stop where
  id : String
  stop_name : String
  lon : Rat
  lat : Rat
deriving Repr, DecidableEq

/-- One departure record from the departures endpoint: the fields of
stop_departure the aggregation code reads.  arrival.estimated is None
(none) when no realtime estimate exists. -/
structure Departure where
  trip_id : String
  route_short_name : String
  trip_headsign : String
  route_type : Nat
  agency_name : String
  service_date : Nat
  arrival_estimated : Option ArrTime
  arrival_scheduled : ArrTime
deriving Repr, DecidableEq

/-- Arrival time string chosen by the code: the realtime estimate when it is
truthy, the scheduled time otherwise. -/
def Departure.chosenArrival (d : Departure) : ArrTime :=
  d.arrival_estimated.getD d.arrival_scheduled

/-- Realtime flag stored with a departure: whether arrival.estimated was
truthy. -/
def Departure.isRealtime (d : Departure) : Bool :=
  d.arrival_estimated.isSome

/-- Value stored in the departures dict of get_next_departures_for_stop_list
under a trip id. -/
structure TripEntry where
  departure : Departure
  closest_stop : Stop
  distance : Rat
  arrival_time : DateTime
  realtime_data : Bool
deriving Repr, DecidableEq

/-- Distance computed by the source for a stop: haversine(lat1, lon1,
stop_point[1], stop_point[0]) where stop_point is [lon, lat] and the starting
coordinates are (lat, lon). -/
def distOf (dist : Rat → Rat → Rat → Rat → Rat) (start : Rat × Rat)
    (st : Stop) : Rat :=
  dist start.1 start.2 st.lat st.lon

/-- Lookup in an insertion-ordered association list (Python dict read). -/
def alistLookup (k : String) : List (String × α) → Option α
  | [] => none
  | (k', v) :: rest => if k' = k then some v else alistLookup k rest

/-- In-place update of an existing key of an insertion-ordered association
list (Python dict write to a present key keeps its position). -/
def alistUpdate (k : String) (v : α) : List (String × α) → List (String × α)
  | [] => []
  | (k', v') :: rest =>
      if k' = k then (k', v) :: rest else (k', v') :: alistUpdate k v rest

/-- Body of the inner loop of get_next_departures_for_stop_list for one
stop_departure seen at one stop: create the dict entry on first sight of the
trip id (arrival parsed by get_corrected_datetime), otherwise replace the
entry when this stop is strictly closer (arrival parsed by plain
datetime.strptime, which does not roll hours above 23 over and raises on
them). -/
def processDeparture (dist : Rat → Rat → Rat → Rat → Rat) (start : Rat × Rat)
    (stop : Stop) (dep : Departure) (acc : List (String × TripEntry)) :
    Option (List (String × TripEntry)) :=
  let user_distance_from_stop := distOf dist start stop
  match alistLookup dep.trip_id acc with
  | none =>
      match get_corrected_datetime dep.service_date dep.chosenArrival with
      | none => none
      | some arrival_datetime =>
          some (acc ++ [(dep.trip_id,
            { departure := dep
              closest_stop := stop
              distance := user_distance_from_stop
              arrival_time := arrival_datetime
              realtime_data := dep.isRealtime })])
  | some cached =>
      if user_distance_from_stop < cached.distance then
        match strptime_date_time dep.service_date dep.chosenArrival with
        | none => none
        | some arrival_datetime =>
            some (alistUpdate dep.trip_id
              { departure := dep
                closest_stop := stop
                distance := user_distance_from_stop
                arrival_time := arrival_datetime
                realtime_data := dep.isRealtime } acc)
      else
        some acc

/-- Inner loop of get_next_departures_for_stop_list over the departures of
one stop. -/
def processDepartures (dist : Rat → Rat → Rat → Rat → Rat)
    (start : Rat × Rat) (stop : Stop) :
    List Departure → List (String × TripEntry) →
    Option (List (String × TripEntry))
  | [], acc => some acc
  | dep :: rest, acc =>
      match processDeparture dist start stop dep acc with
      | none => none
      | some acc' => processDepartures dist start stop rest acc'

/-- Outer loop of get_next_departures_for_stop_list over the stop list; the
departures of each stop are fetched from the network, modelled by the fetch
parameter. -/
def processStops (dist : Rat → Rat → Rat → Rat → Rat)
    (fetch : String → List Departure) (start : Rat × Rat) :
    List Stop → List (String × TripEntry) →
    Option (List (String × TripEntry))
  | [], acc => some acc
  | stop :: rest, acc =>
      match processDepartures dist start stop (fetch stop.id) acc with
      | none => none
      | some acc' => processStops dist fetch start rest acc'

/-- Embedding of utils.get_next_departures_for_stop_list: the departures
dict keyed by trip id, in insertion order. -/
def get_next_departures_for_stop_list (dist : Rat → Rat → Rat → Rat → Rat)
    (fetch : String → List Departure) (stops : List Stop)
    (start : Rat × Rat) : Option (List (String × TripEntry)) :=
  processStops dist fetch start stops []

/-- All (stop, departure) pairs the nested loops of
get_next_departures_for_stop_list visit, in visiting order. -/
def stopDeparturePairs (fetch : String → List Departure)
    (stops : List Stop) : List (Stop × Departure) :=
  stops.flatMap fun st => (fetch st.id).map fun d => (st, d)

/-- Flattened form of the nested loops: one pass over the (stop, departure)
pairs. -/
def processPairs (dist : Rat → Rat → Rat → Rat → Rat) (start : Rat × Rat) :
    List (Stop × Departure) → List (String × TripEntry) →
    Option (List (String × TripEntry))
  | [], acc => some acc
  | (stop, dep) :: rest, acc =>
      match processDeparture dist start stop dep acc with
      | none => none
      | some acc' => processPairs dist start rest acc'

/-- Embedding of utils.gtfs_route_type_to_string: the literal mapping dict;
an unmapped route type raises KeyError (none). -/
def gtfs_route_type_to_string (route_type_int : Nat) : Option String :=
  match route_type_int with
  | 0 => some "Trolley 🚋"
  | 1 => some "Subway 🚇"
  | 2 => some "Train 🚆"
  | 3 => some "Bus 🚍"
  | 4 => some "Ferry ⛴️"
  | 5 => some "Cable Tram 🚋"
  | 6 => some "Aerial Lift 🚠"
  | 7 => some "Funicular 🚡"
  | 11 => some "TrolleyBus 🚎"
  | 12 => some "Monorail 🚝"
  | _ => none

/-- Route + direction grouping key of get_upcoming_departures:
f"{route_short_name} - {trip_headsign}". -/
def comboKey (e : TripEntry) : String :=
  e.departure.route_short_name ++ " - " ++ e.departure.trip_headsign

/-- Value stored in the departure_dict of get_upcoming_departures under a
route + headsign key. -/
structure RouteGroup where
  route : String
  route_type : String
  direction : String
  stop : String
  arrival_times : List DateTime
  realtime_data : List Bool
  agency_name : String
  full_stop : Stop
deriving Repr, DecidableEq

/-- Comparison used to sort the departures dict items by arrival_time. -/
def arrLE (a b : String × TripEntry) : Prop :=
  a.2.arrival_time.toSeconds ≤ b.2.arrival_time.toSeconds

instance : DecidableRel arrLE := fun a b =>
  inferInstanceAs
    (Decidable (a.2.arrival_time.toSeconds ≤ b.2.arrival_time.toSeconds))

instance : IsTotal (String × TripEntry) arrLE :=
  ⟨fun a b =>
    Nat.le_total a.2.arrival_time.toSeconds b.2.arrival_time.toSeconds⟩

instance : IsTrans (String × TripEntry) arrLE :=
  ⟨fun _ _ _ h h' => Nat.le_trans h h'⟩

/-- Grouping loop of get_upcoming_departures over the sorted deduplicated
trips: create a group on first sight of a route + headsign key (the
route_type lookup raises on unmapped values), else append arrival time and
realtime flag only while the group holds fewer than 4 arrival times. -/
def buildGroups :
    List (String × TripEntry) → List (String × RouteGroup) →
    Option (List (String × RouteGroup))
  | [], acc => some acc
  | (_, e) :: rest, acc =>
      let key := comboKey e
      match alistLookup key acc with
      | none =>
          match gtfs_route_type_to_string e.departure.route_type with
          | none => none
          | some route_type_str =>
              buildGroups rest (acc ++ [(key,
                { route := e.departure.route_short_name
                  route_type := route_type_str
                  direction := e.departure.trip_headsign
                  stop := e.closest_stop.stop_name
                  arrival_times := [e.arrival_time]
                  realtime_data := [e.realtime_data]
                  agency_name := e.departure.agency_name
                  full_stop := e.closest_stop })])
      | some g =>
          if g.arrival_times.length < 4 then
            buildGroups rest (alistUpdate key
              { g with
                arrival_times := g.arrival_times ++ [e.arrival_time]
                realtime_data := g.realtime_data ++ [e.realtime_data] } acc)
          else
            buildGroups rest acc

/-- Final loop of get_upcoming_departures: collect each distinct full_stop of
the grouped departures, keeping first occurrences by stop id. -/
def dedupStops : List (String × RouteGroup) → List Stop → List Stop
  | [], acc => acc
  | (_, g) :: rest, acc =>
      if acc.any fun st => st.id = g.full_stop.id then
        dedupStops rest acc
      else
        dedupStops rest (acc ++ [g.full_stop])

/-- Embedding of utils.get_upcoming_departures: aggregate all departures of
the stop list, sort them by arrival time (Python sorted is stable;
List.insertionSort keeps earlier elements of equal key first and matches
it), group by route + headsign, and collect the de-duplicated list of
closest stops. -/
def get_upcoming_departures (dist : Rat → Rat → Rat → Rat → Rat)
    (fetch : String → List Departure) (stop_list : List Stop)
    (address_geo_coords : Rat × Rat) :
    Option (List (String × RouteGroup) × List Stop) :=
  match get_next_departures_for_stop_list dist fetch stop_list
      address_geo_coords with
  | none => none
  | some all_departures =>
      let sorted_departures := all_departures.insertionSort arrLE
      match buildGroups sorted_departures [] with
      | none => none
      | some departure_dict =>
          some (departure_dict, dedupStops departure_dict [])

/-- Embedding of utils.string_to_dark_background_color.  The md5 hex digest
is abstracted as a parameter giving the digit values (each below 16) of the
digest of a string; int(hex[0:2], 16) is digit0 * 16 + digit1, and each
channel is reduced modulo 128. -/
def string_to_dark_background_color (md5_hex : String → List Nat)
    (input_string : String) : Nat × Nat × Nat :=
  let h := md5_hex input_string
  let red := (h.getD 0 0 * 16 + h.getD 1 0) % 128
  let green := (h.getD 2 0 * 16 + h.getD 3 0) % 128
  let blue := (h.getD 4 0 * 16 + h.getD 5 0) % 128
  (red, green, blue)

/-- Geocoder result entry: the lat and lon fields of one Nominatim match,
already parsed as numbers (float of a decimal string). -/
structure GeoLocation where
  lat : Rat
  lon : Rat
deriving Repr, DecidableEq

/-- Embedding of utils.get_lat_long_from_string_address over the list of
results the lookup service returned for the address: empty result gives
(0.0, 0.0), otherwise the first result is used. -/
def get_lat_long_from_string_address (response_data : List GeoLocation) :
    Rat × Rat :=
  match response_data with
  | [] => (0, 0)
  | location :: _ => (location.lat, location.lon)

/-- Embedding of the later definition of utils.time_difference_strings (it
shadows the earlier one; the marker is the antenna emoji).  Dates and the
current time are in absolute seconds (Int); int(total_seconds / 60)
truncates toward zero, which is Int.tdiv.  Indexing realtime_data raises
IndexError (none) when the list is non-empty but too short. -/
def timeDiffGo (current_time : Int) (realtime_data : List Bool) :
    List Int → Nat → Option (List String)
  | [], _ => some []
  | date :: rest, date_index =>
      let minutes_difference := Int.tdiv (date - current_time) 60
      let base := if minutes_difference = 0 then "Now"
        else toString minutes_difference.natAbs ++ " min"
      let flag : Option Bool :=
        if realtime_data.isEmpty then some false
        else realtime_data.get? date_index
      match flag with
      | none => none
      | some b =>
          let entry := if b then base ++ "📡" else base
          match timeDiffGo current_time realtime_data rest (date_index + 1)
            with
          | none => none
          | some tail => some (entry :: tail)

/-- Embedding of utils.time_difference_strings (second definition). -/
def time_difference_strings (current_time : Int) (date_list : List Int)
    (realtime_data : List Bool) : Option (List String) :=
  timeDiffGo current_time realtime_data date_list 0

/-- Constant PAGE_TURN_INTERVAL_SEC of mini_metro_display.py. -/
def PAGE_TURN_INTERVAL_SEC : Nat := 15

/-- Constant DISPLAY_UPDATE_INTERVAL_SEC of mini_metro_display.py. -/
def DISPLAY_UPDATE_INTERVAL_SEC : Nat := 120

/-- Constant UPDATE_INTERVALS_TO_USE_CACHED_STOP_DATA of
mini_metro_display.py. -/
def UPDATE_INTERVALS_TO_USE_CACHED_STOP_DATA : Nat := 30

/-- Paging state of BusStopApp: current_page and the page count of the
stacked widget. -/
structure AppState where
  current_page : Nat
  total_pages : Nat
deriving Repr, DecidableEq

/-- Embedding of BusStopApp.switch_page: advance modulo the page count when
there is more than one page, otherwise do nothing. -/
def switch_page (s : AppState) : AppState :=
  if s.total_pages > 1 then
    { s with current_page := (s.current_page + 1) % s.total_pages }
  else
    s

/-- Embedding of the paging effect of BusStopApp.update_table on the display
state: rebuild ceil(n / 4) pages for n departure groups and reset
current_page to 0. -/
def update_table (total_departures : Nat) (_s : AppState) : AppState :=
  let items_per_page := 4
  { current_page := 0
    total_pages :=
      (total_departures + items_per_page - 1) / items_per_page }

/-- State of WorkerThread between loop iterations. -/
structure WorkerState where
  monitored_stop_list : List Stop
  update_intervals_to_use_cached_stop_data : Nat
deriving Repr, DecidableEq

/-- Per-iteration environment of the worker loop: the departures endpoint
and the nearby-stops endpoint responses for this iteration. -/
structure WorkerEnv where
  fetch : String → List Departure
  nearby : List Stop

/-- Embedding of one iteration of WorkerThread.run: aggregate departures for
the monitored stops; while the cached-stop counter is nonzero replace the
monitored list with the stops used for the current data and decrement, else
re-fetch all nearby stops and reset the counter. -/
def worker_iteration (dist : Rat → Rat → Rat → Rat → Rat) (env : WorkerEnv)
    (address_coords : Rat × Rat) (s : WorkerState) : Option WorkerState :=
  match get_upcoming_departures dist env.fetch s.monitored_stop_list
      address_coords with
  | none => none
  | some (_display_data, updated_stops_list) =>
      if s.update_intervals_to_use_cached_stop_data ≠ 0 then
        some { monitored_stop_list := updated_stops_list
               update_intervals_to_use_cached_stop_data :=
                 s.update_intervals_to_use_cached_stop_data - 1 }
      else
        some { monitored_stop_list := env.nearby
               update_intervals_to_use_cached_stop_data :=
                 UPDATE_INTERVALS_TO_USE_CACHED_STOP_DATA }

/-- Invariant of the departures dict of get_next_departures_for_stop_list
after processing a prefix of the visited (stop, departure) pairs: keys are
distinct, the key set is exactly the trip ids seen so far, and each entry
records a visited reporting pair of its trip whose distance is minimal among
the visited reporters, with the arrival datetime parsed from the service
date and chosen arrival time of the recorded departure. -/
def DedupInv (dist : Rat → Rat → Rat → Rat → Rat) (start : Rat × Rat)
    (processed : List (Stop × Departure))
    (acc : List (String × TripEntry)) : Prop :=
  (acc.map Prod.fst).Nodup ∧
  (∀ tid, tid ∈ acc.map Prod.fst ↔ ∃ p ∈ processed, p.2.trip_id = tid) ∧
  (∀ tid e, (tid, e) ∈ acc →
    e.departure.trip_id = tid ∧
    (e.closest_stop, e.departure) ∈ processed ∧
    e.distance = distOf dist start e.closest_stop ∧
    (∀ p ∈ processed, p.2.trip_id = tid →
      e.distance ≤ distOf dist start p.1) ∧
    get_corrected_datetime e.departure.service_date
      e.departure.chosenArrival = some e.arrival_time ∧
    e.realtime_data = e.departure.isRealtime)

/-- Invariant of the departure_dict of get_upcoming_departures after
processing a prefix of the sorted deduplicated trips: keys are distinct,
the key set is the route + headsign combos seen so far, and each group
stores exactly min(number of trips of that combo seen so far, 4) arrival
times with a realtime flag for each. -/
def GroupsLenInv (processed : List (String × TripEntry))
    (acc : List (String × RouteGroup)) : Prop :=
  (acc.map Prod.fst).Nodup ∧
  (∀ k, k ∈ acc.map Prod.fst ↔ ∃ q ∈ processed, comboKey q.2 = k) ∧
  (∀ k g, (k, g) ∈ acc →
    g.arrival_times.length =
      min (processed.countP fun q => decide (comboKey q.2 = k)) 4 ∧
    g.realtime_data.length = g.arrival_times.length)

/-- Rendered string for one date at a given index: "Now" exactly when the
truncated whole-minute difference is 0, otherwise the absolute minute count,
with the realtime marker appended when the flag at that index is true. -/
def timeEntryString (current_time : Int) (realtime_data : List Bool)
    (i : Nat) (date : Int) : String :=
  let base := if Int.tdiv (date - current_time) 60 = 0 then "Now"
    else toString (Int.tdiv (date - current_time) 60).natAbs ++ " min"
  if realtime_data.getD i false then base ++ "📡" else base

def wDist : Rat → Rat → Rat → Rat → Rat := fun _ _ lat2 _ => lat2

def wStopA : Stop := ⟨"a", "Stop A", 0, 10⟩

def wStopB : Stop := ⟨"b", "Stop B", 0, 5⟩

def wDepA : Departure := ⟨"t1", "17", "Downtown", 3, "Agency", 0, none, ⟨10, 0, 0⟩⟩

def wDepB : Departure := ⟨"t1", "17", "Downtown", 3, "Agency", 0, none, ⟨10, 5, 0⟩⟩

def wFetch : String → List Departure := fun id =>
  if id = "a" then [wDepA] else if id = "b" then [wDepB] else []

def wEntry : TripEntry := ⟨wDepB, wStopB, 5, ⟨0, 10, 5, 0⟩, false⟩

def wGroup : RouteGroup :=
  ⟨"17", "Bus 🚍", "Downtown", "Stop B", [⟨0, 10, 5, 0⟩], [false],
    "Agency", wStopB⟩

def wEnv : WorkerEnv := ⟨fun _ => [], []⟩

def wCounter : Nat → Nat
  | 0 => 2
  | n + 1 =>
      if wCounter n = 0 then UPDATE_INTERVALS_TO_USE_CACHED_STOP_DATA
      else wCounter n - 1

def wTrace (n : Nat) : WorkerState := ⟨[], wCounter n⟩

/-! Helper lemmas about the association list operations. -/

theorem alistLookup_eq_none_iff (k : String) (l : List (String × α)) :
    alistLookup k l = none ↔ k ∉ l.map Prod.fst := by
  induction l with
  | nil => simp [alistLookup]
  | cons p rest ih =>
      obtain ⟨k', v⟩ := p
      simp only [alistLookup, List.map_cons, List.mem_cons]
      by_cases h : k' = k
      · subst h
        simp
      · rw [if_neg h, ih]
        constructor
        · intro hnk
          rintro (h1 | h2)
          · exact h h1.symm
          · exact hnk h2
        · intro hnk hmem
          exact hnk (Or.inr hmem)

theorem alistLookup_mem {k : String} {l : List (String × α)} {v : α}
    (h : alistLookup k l = some v) : (k, v) ∈ l := by
  induction l with
  | nil => simp [alistLookup] at h
  | cons p rest ih =>
      obtain ⟨k', v'⟩ := p
      by_cases hk : k' = k
      · subst hk
        simp only [alistLookup] at h
        rw [if_true] at h
        cases h
        exact List.mem_cons_self _ _
      · simp only [alistLookup, if_neg hk] at h
        exact List.mem_cons_of_mem _ (ih h)

theorem alistLookup_of_mem_nodup {k : String} {l : List (String × α)} {v : α}
    (hnd : (l.map Prod.fst).Nodup) (h : (k, v) ∈ l) :
    alistLookup k l = some v := by
  induction l with
  | nil => simp at h
  | cons p rest ih =>
      obtain ⟨k', v'⟩ := p
      simp only [List.map_cons, List.nodup_cons] at hnd
      rcases List.mem_cons.mp h with heq | hmem
      · cases heq
        simp [alistLookup]
      · have hk : k' ≠ k := by
          intro hk
          subst hk
          exact hnd.1 (List.mem_map.mpr ⟨(k', v), hmem, rfl⟩)
        rw [alistLookup, if_neg hk]
        exact ih hnd.2 hmem

theorem alistUpdate_map_fst (k : String) (v : α) (l : List (String × α)) :
    (alistUpdate k v l).map Prod.fst = l.map Prod.fst := by
  induction l with
  | nil => rfl
  | cons p rest ih =>
      obtain ⟨k', v'⟩ := p
      by_cases h : k' = k <;> simp [alistUpdate, h, ih]

theorem mem_alistUpdate_weak {k k' : String} {l : List (String × α)}
    {v v' : α} (h : (k', v') ∈ alistUpdate k v l) :
    (k', v') ∈ l ∨ (k' = k ∧ v' = v) := by
  induction l with
  | nil => simp [alistUpdate] at h
  | cons p rest ih =>
      obtain ⟨k0, v0⟩ := p
      by_cases hk : k0 = k
      · subst hk
        simp only [alistUpdate] at h
        rw [if_true] at h
        rcases List.mem_cons.mp h with heq | hmem
        · cases heq
          exact Or.inr ⟨rfl, rfl⟩
        · exact Or.inl (List.mem_cons_of_mem _ hmem)
      · simp only [alistUpdate, if_neg hk] at h
        rcases List.mem_cons.mp h with heq | hmem
        · cases heq
          exact Or.inl (List.mem_cons_self _ _)
        · rcases ih hmem with h1 | h2
          · exact Or.inl (List.mem_cons_of_mem _ h1)
          · exact Or.inr h2

theorem mem_alistUpdate_nodup {k : String} {l : List (String × α)} {v : α}
    (hnd : (l.map Prod.fst).Nodup) (hk : k ∈ l.map Prod.fst)
    (k' : String) (v' : α) :
    (k', v') ∈ alistUpdate k v l ↔
      (k' ≠ k ∧ (k', v') ∈ l) ∨ (k' = k ∧ v' = v) := by
  induction l with
  | nil => simp at hk
  | cons p rest ih =>
      obtain ⟨k0, v0⟩ := p
      simp only [List.map_cons, List.nodup_cons] at hnd
      by_cases hk0 : k0 = k
      · subst hk0
        have hred : alistUpdate k0 v ((k0, v0) :: rest) = (k0, v) :: rest := by
          simp [alistUpdate]
        rw [hred]
        constructor
        · intro h
          rcases List.mem_cons.mp h with heq | hmem
          · cases heq
            exact Or.inr ⟨rfl, rfl⟩
          · have hne : k' ≠ k0 := by
              intro hkk
              subst hkk
              exact hnd.1 (List.mem_map.mpr ⟨(k', v'), hmem, rfl⟩)
            exact Or.inl ⟨hne, List.mem_cons_of_mem _ hmem⟩
        · rintro (⟨hne, hmem⟩ | ⟨rfl, rfl⟩)
          · rcases List.mem_cons.mp hmem with heq | hmem'
            · cases heq
              exact (hne rfl).elim
            · exact List.mem_cons_of_mem _ hmem'
          · exact List.mem_cons_self _ _
      · have hkrest : k ∈ rest.map Prod.fst := by
          simp only [List.map_cons, List.mem_cons] at hk
          rcases hk with heq | hmem
          · exact absurd heq.symm hk0
          · exact hmem
        simp only [alistUpdate, if_neg hk0]
        constructor
        · intro h
          rcases List.mem_cons.mp h with heq | hmem
          · cases heq
            exact Or.inl ⟨fun hkk => hk0 hkk, List.mem_cons_self _ _⟩
          · rcases (ih hnd.2 hkrest).mp hmem with ⟨hne, hmem'⟩ | hr
            · exact Or.inl ⟨hne, List.mem_cons_of_mem _ hmem'⟩
            · exact Or.inr hr
        · rintro (⟨hne, hmem⟩ | ⟨rfl, rfl⟩)
          · rcases List.mem_cons.mp hmem with heq | hmem'
            · cases heq
              exact List.mem_cons_self _ _
            · exact List.mem_cons_of_mem _
                ((ih hnd.2 hkrest).mpr (Or.inl ⟨hne, hmem'⟩))
          · exact List.mem_cons_of_mem _
              ((ih hnd.2 hkrest).mpr (Or.inr ⟨rfl, rfl⟩))

/-- A successful plain strptime parse agrees with get_corrected_datetime:
strptime only succeeds for hours up to 23, where no rollover happens. -/
theorem strptime_some_corrected {sd : Nat} {at_ : ArrTime} {dt : DateTime}
    (h : strptime_date_time sd at_ = some dt) :
    get_corrected_datetime sd at_ = some dt := by
  unfold strptime_date_time at h
  split at h
  · rename_i hcond
    obtain ⟨hh, hm, hs⟩ := hcond
    cases h
    unfold get_corrected_datetime
    simp only [if_neg (show ¬ at_.hour > 23 by omega)]
    rw [if_pos ⟨hm, hs⟩]
  · exact absurd h (by simp)

/-! Flattening of the nested loops of get_next_departures_for_stop_list into
a single pass over the visited (stop, departure) pairs. -/

theorem processPairs_append (dist : Rat → Rat → Rat → Rat → Rat)
    (start : Rat × Rat) (l1 l2 : List (Stop × Departure))
    (acc : List (String × TripEntry)) :
    processPairs dist start (l1 ++ l2) acc =
      match processPairs dist start l1 acc with
      | none => none
      | some acc' => processPairs dist start l2 acc' := by
  induction l1 generalizing acc with
  | nil => simp [processPairs]
  | cons p rest ih =>
      obtain ⟨stop, dep⟩ := p
      simp only [List.cons_append, processPairs]
      cases processDeparture dist start stop dep acc with
      | none => rfl
      | some acc' => exact ih acc'

theorem processDepartures_eq_pairs (dist : Rat → Rat → Rat → Rat → Rat)
    (start : Rat × Rat) (stop : Stop) (deps : List Departure)
    (acc : List (String × TripEntry)) :
    processDepartures dist start stop deps acc =
      processPairs dist start (deps.map fun d => (stop, d)) acc := by
  induction deps generalizing acc with
  | nil => rfl
  | cons dep rest ih =>
      simp only [processDepartures, List.map_cons, processPairs]
      cases processDeparture dist start stop dep acc with
      | none => rfl
      | some acc' => exact ih acc'

theorem processStops_eq_pairs (dist : Rat → Rat → Rat → Rat → Rat)
    (fetch : String → List Departure) (start : Rat × Rat)
    (stops : List Stop) (acc : List (String × TripEntry)) :
    processStops dist fetch start stops acc =
      processPairs dist start (stopDeparturePairs fetch stops) acc := by
  induction stops generalizing acc with
  | nil => rfl
  | cons stop rest ih =>
      simp only [processStops, stopDeparturePairs, List.flatMap_cons]
      rw [processPairs_append]
      rw [processDepartures_eq_pairs]
      cases processPairs dist start ((fetch stop.id).map fun d => (stop, d))
          acc with
      | none => rfl
      | some acc' =>
          simpa [stopDeparturePairs] using ih acc'

theorem get_next_departures_eq_pairs (dist : Rat → Rat → Rat → Rat → Rat)
    (fetch : String → List Departure) (stops : List Stop)
    (start : Rat × Rat) :
    get_next_departures_for_stop_list dist fetch stops start =
      processPairs dist start (stopDeparturePairs fetch stops) [] :=
  processStops_eq_pairs dist fetch start stops []

theorem dedupInv_step {dist : Rat → Rat → Rat → Rat → Rat}
    {start : Rat × Rat} {processed : List (Stop × Departure)}
    {acc acc' : List (String × TripEntry)} {stop : Stop} {dep : Departure}
    (hinv : DedupInv dist start processed acc)
    (hp : processDeparture dist start stop dep acc = some acc') :
    DedupInv dist start (processed ++ [(stop, dep)]) acc' := by
  obtain ⟨hnd, hkeys, hent⟩ := hinv
  simp only [processDeparture] at hp
  split at hp
  · -- trip id not yet tracked: a new entry is appended
    rename_i hlk
    split at hp
    · exact absurd hp (by simp)
    · rename_i adt hadt
      cases hp
      have hnew : dep.trip_id ∉ acc.map Prod.fst :=
        (alistLookup_eq_none_iff _ _).mp hlk
      refine ⟨?_, ?_, ?_⟩
      · rw [List.map_append]
        simp only [List.map_cons, List.map_nil]
        rw [List.nodup_append]
        refine ⟨hnd, List.nodup_singleton _, ?_⟩
        intro a ha hb
        exact hnew (List.mem_singleton.mp hb ▸ ha)
      · intro tid
        rw [List.map_append]
        simp only [List.map_cons, List.map_nil, List.mem_append,
          List.mem_singleton]
        constructor
        · rintro (hin | rfl)
          · obtain ⟨p, hpmem, hptid⟩ := (hkeys tid).mp hin
            exact ⟨p, Or.inl hpmem, hptid⟩
          · exact ⟨(stop, dep), Or.inr rfl, rfl⟩
        · rintro ⟨p, hl | rfl, hptid⟩
          · exact Or.inl ((hkeys tid).mpr ⟨p, hl, hptid⟩)
          · exact Or.inr hptid.symm
      · intro tid e hmem
        rcases List.mem_append.mp hmem with hold | hnewmem
        · obtain ⟨h1, h2, h3, h4, h5, h6⟩ := hent tid e hold
          refine ⟨h1, List.mem_append_left _ h2, h3, ?_, h5, h6⟩
          intro p hpmem hptid
          rcases List.mem_append.mp hpmem with hl | hr
          · exact h4 p hl hptid
          · simp only [List.mem_singleton] at hr
            subst hr
            exfalso
            apply hnew
            rw [hptid]
            exact List.mem_map.mpr ⟨(tid, e), hold, rfl⟩
        · simp only [List.mem_singleton, Prod.mk.injEq] at hnewmem
          obtain ⟨rfl, rfl⟩ := hnewmem
          refine ⟨rfl, List.mem_append_right _ (by simp), rfl, ?_, hadt, rfl⟩
          intro p hpmem hptid
          rcases List.mem_append.mp hpmem with hl | hr
          · exfalso
            apply hnew
            exact (hkeys dep.trip_id).mpr ⟨p, hl, hptid⟩
          · simp only [List.mem_singleton] at hr
            subst hr
            exact le_refl _
  · -- trip id already tracked
    rename_i cached hlk
    have hcmem : (dep.trip_id, cached) ∈ acc := alistLookup_mem hlk
    have hkey : dep.trip_id ∈ acc.map Prod.fst :=
      List.mem_map.mpr ⟨(dep.trip_id, cached), hcmem, rfl⟩
    obtain ⟨hc1, hc2, hc3, hc4, hc5, hc6⟩ := hent dep.trip_id cached hcmem
    split at hp
    · -- the new stop is strictly closer: the entry is replaced
      rename_i hlt
      split at hp
      · exact absurd hp (by simp)
      · rename_i adt hadt
        cases hp
        refine ⟨?_, ?_, ?_⟩
        · rw [alistUpdate_map_fst]
          exact hnd
        · intro tid
          rw [alistUpdate_map_fst]
          constructor
          · intro hin
            obtain ⟨p, hpmem, hptid⟩ := (hkeys tid).mp hin
            exact ⟨p, List.mem_append_left _ hpmem, hptid⟩
          · rintro ⟨p, hpmem, hptid⟩
            rcases List.mem_append.mp hpmem with hl | hr
            · exact (hkeys tid).mpr ⟨p, hl, hptid⟩
            · simp only [List.mem_singleton] at hr
              subst hr
              exact hptid ▸ hkey
        · intro tid e hmem
          rcases (mem_alistUpdate_nodup hnd hkey tid e).mp hmem with
            ⟨hne, hold⟩ | ⟨rfl, rfl⟩
          · obtain ⟨h1, h2, h3, h4, h5, h6⟩ := hent tid e hold
            refine ⟨h1, List.mem_append_left _ h2, h3, ?_, h5, h6⟩
            intro p hpmem hptid
            rcases List.mem_append.mp hpmem with hl | hr
            · exact h4 p hl hptid
            · simp only [List.mem_singleton] at hr
              subst hr
              exact absurd hptid.symm hne
          · refine ⟨rfl, List.mem_append_right _ (by simp), rfl, ?_,
              strptime_some_corrected hadt, rfl⟩
            intro p hpmem hptid
            rcases List.mem_append.mp hpmem with hl | hr
            · exact le_of_lt (lt_of_lt_of_le hlt (hc4 p hl hptid))
            · simp only [List.mem_singleton] at hr
              subst hr
              exact le_refl _
    · -- the cached stop stays (it is at least as close)
      rename_i hge
      cases hp
      refine ⟨hnd, ?_, ?_⟩
      · intro tid
        constructor
        · intro hin
          obtain ⟨p, hpmem, hptid⟩ := (hkeys tid).mp hin
          exact ⟨p, List.mem_append_left _ hpmem, hptid⟩
        · rintro ⟨p, hpmem, hptid⟩
          rcases List.mem_append.mp hpmem with hl | hr
          · exact (hkeys tid).mpr ⟨p, hl, hptid⟩
          · simp only [List.mem_singleton] at hr
            subst hr
            exact hptid ▸ hkey
      · intro tid e hmem
        obtain ⟨h1, h2, h3, h4, h5, h6⟩ := hent tid e hmem
        refine ⟨h1, List.mem_append_left _ h2, h3, ?_, h5, h6⟩
        intro p hpmem hptid
        rcases List.mem_append.mp hpmem with hl | hr
        · exact h4 p hl hptid
        · simp only [List.mem_singleton] at hr
          subst hr
          have he : e = cached := by
            have hlk2 : alistLookup tid acc = some e :=
              alistLookup_of_mem_nodup hnd hmem
            rw [← hptid] at hlk2
            rw [hlk] at hlk2
            exact (Option.some.inj hlk2).symm
          rw [he]
          exact not_lt.mp hge

theorem dedupInv_run {dist : Rat → Rat → Rat → Rat → Rat} {start : Rat × Rat}
    (l : List (Stop × Departure)) :
    ∀ {processed : List (Stop × Departure)}
      {acc acc' : List (String × TripEntry)},
      DedupInv dist start processed acc →
      processPairs dist start l acc = some acc' →
      DedupInv dist start (processed ++ l) acc' := by
  induction l with
  | nil =>
      intro processed acc acc' hinv hp
      simp only [processPairs, Option.some.injEq] at hp
      subst hp
      simpa using hinv
  | cons p rest ih =>
      intro processed acc acc' hinv hp
      obtain ⟨stop, dep⟩ := p
      simp only [processPairs] at hp
      cases hq : processDeparture dist start stop dep acc with
      | none => rw [hq] at hp; exact absurd hp (by simp)
      | some acc1 =>
          rw [hq] at hp
          have h1 := dedupInv_step hinv hq
          have h2 := ih h1 hp
          simpa [List.append_assoc] using h2

theorem dedupInv_nil (dist : Rat → Rat → Rat → Rat → Rat)
    (start : Rat × Rat) : DedupInv dist start [] [] := by
  unfold DedupInv
  refine ⟨by simp, by simp, by simp⟩

theorem dedupInv_result {dist : Rat → Rat → Rat → Rat → Rat}
    {start : Rat × Rat} {fetch : String → List Departure}
    {stops : List Stop} {m : List (String × TripEntry)}
    (h : get_next_departures_for_stop_list dist fetch stops start = some m) :
    DedupInv dist start (stopDeparturePairs fetch stops) m := by
  rw [get_next_departures_eq_pairs] at h
  simpa using dedupInv_run _ (dedupInv_nil dist start) h

theorem mem_stopDeparturePairs {fetch : String → List Departure}
    {stops : List Stop} (p : Stop × Departure) :
    p ∈ stopDeparturePairs fetch stops ↔
      p.1 ∈ stops ∧ p.2 ∈ fetch p.1.id := by
  obtain ⟨st, d⟩ := p
  simp only [stopDeparturePairs, List.mem_flatMap, List.mem_map]
  constructor
  · rintro ⟨a, ha, x, hx, heq⟩
    cases heq
    exact ⟨ha, hx⟩
  · rintro ⟨hst, hd⟩
    exact ⟨st, hst, d, hd, rfl⟩

/-- C1: for every stop list and departure data, whenever a trip id is
reported by more than one stop, the single entry that
get_next_departures_for_stop_list keeps for that trip records a reporting
stop whose distance (as computed by the haversine call) from the starting
coordinates is minimal among all stops reporting that trip, together with
that departure's arrival time parsed from its service date and chosen
arrival time string. -/
theorem closest_stop_per_trip (dist : Rat → Rat → Rat → Rat → Rat)
    (fetch : String → List Departure) (stops : List Stop)
    (start : Rat × Rat) (m : List (String × TripEntry)) (tid : String)
    (e : TripEntry)
    (hrun : get_next_departures_for_stop_list dist fetch stops start =
      some m)
    (hmem : (tid, e) ∈ m)
    (_hmulti : ∃ p ∈ stopDeparturePairs fetch stops,
      ∃ q ∈ stopDeparturePairs fetch stops,
        p.2.trip_id = tid ∧ q.2.trip_id = tid ∧ p.1 ≠ q.1) :
    e.closest_stop ∈ stops ∧
    e.departure ∈ fetch e.closest_stop.id ∧
    e.departure.trip_id = tid ∧
    (∀ stop ∈ stops, ∀ dep ∈ fetch stop.id, dep.trip_id = tid →
      distOf dist start e.closest_stop ≤ distOf dist start stop) ∧
    get_corrected_datetime e.departure.service_date
      e.departure.chosenArrival = some e.arrival_time := by
  obtain ⟨_, _, hent⟩ := dedupInv_result hrun
  obtain ⟨h1, h2, h3, h4, h5, _⟩ := hent tid e hmem
  have hpair := (mem_stopDeparturePairs _).mp h2
  refine ⟨hpair.1, hpair.2, h1, ?_, h5⟩
  intro stop hstop dep hdep hdtid
  have hle := h4 (stop, dep)
    ((mem_stopDeparturePairs _).mpr ⟨hstop, hdep⟩) hdtid
  rw [← h3]
  exact hle

/-- C2: for every stop list and departure data, the dict returned by
get_next_departures_for_stop_list has pairwise distinct trip id keys —
departures for the same trip seen at different stops are merged into one
entry — and its key set is exactly the set of trip ids occurring in any
visited stop's departures. -/
theorem one_entry_per_trip_id (dist : Rat → Rat → Rat → Rat → Rat)
    (fetch : String → List Departure) (stops : List Stop)
    (start : Rat × Rat) (m : List (String × TripEntry))
    (hrun : get_next_departures_for_stop_list dist fetch stops start =
      some m) :
    (m.map Prod.fst).Nodup ∧
    ∀ tid, tid ∈ m.map Prod.fst ↔
      ∃ stop ∈ stops, ∃ dep ∈ fetch stop.id, dep.trip_id = tid := by
  obtain ⟨hnd, hkeys, _⟩ := dedupInv_result hrun
  refine ⟨hnd, fun tid => ?_⟩
  rw [hkeys tid]
  constructor
  · rintro ⟨p, hp, htid⟩
    have hmem := (mem_stopDeparturePairs p).mp hp
    exact ⟨p.1, hmem.1, p.2, hmem.2, htid⟩
  · rintro ⟨stop, hstop, dep, hdep, htid⟩
    exact ⟨(stop, dep), (mem_stopDeparturePairs _).mpr ⟨hstop, hdep⟩, htid⟩

theorem groupsLenInv_run (l : List (String × TripEntry)) :
    ∀ {processed : List (String × TripEntry)}
      {acc dd : List (String × RouteGroup)},
      GroupsLenInv processed acc →
      buildGroups l acc = some dd →
      GroupsLenInv (processed ++ l) dd := by
  induction l with
  | nil =>
      intro processed acc dd hinv hb
      simp only [buildGroups, Option.some.injEq] at hb
      subst hb
      simpa using hinv
  | cons q rest ih =>
      intro processed acc dd hinv hb
      obtain ⟨tid, e⟩ := q
      obtain ⟨hnd, hkeys, hlen⟩ := hinv
      simp only [buildGroups] at hb
      split at hb
      · -- new route + headsign combo: a fresh group is appended
        rename_i hlk
        split at hb
        · exact absurd hb (by simp)
        · rename_i rts hr
          have hnew : comboKey e ∉ acc.map Prod.fst :=
            (alistLookup_eq_none_iff _ _).mp hlk
          have hcount0 :
              (processed.countP fun q => decide (comboKey q.2 = comboKey e))
                = 0 := by
            rw [List.countP_eq_zero]
            intro a ha
            simp only [decide_eq_true_eq]
            intro hc
            exact hnew ((hkeys (comboKey e)).mpr ⟨a, ha, hc⟩)
          have hstep :
              GroupsLenInv (processed ++ [(tid, e)]) (acc ++ [(comboKey e,
                { route := e.departure.route_short_name
                  route_type := rts
                  direction := e.departure.trip_headsign
                  stop := e.closest_stop.stop_name
                  arrival_times := [e.arrival_time]
                  realtime_data := [e.realtime_data]
                  agency_name := e.departure.agency_name
                  full_stop := e.closest_stop })]) := by
            refine ⟨?_, ?_, ?_⟩
            · rw [List.map_append]
              simp only [List.map_cons, List.map_nil]
              rw [List.nodup_append]
              refine ⟨hnd, List.nodup_singleton _, ?_⟩
              intro a ha hbmem
              exact hnew (List.mem_singleton.mp hbmem ▸ ha)
            · intro k
              rw [List.map_append]
              simp only [List.map_cons, List.map_nil, List.mem_append,
                List.mem_singleton]
              constructor
              · rintro (hin | rfl)
                · obtain ⟨p, hpmem, hptid⟩ := (hkeys k).mp hin
                  exact ⟨p, Or.inl hpmem, hptid⟩
                · exact ⟨(tid, e), Or.inr rfl, rfl⟩
              · rintro ⟨p, hl | rfl, hptid⟩
                · exact Or.inl ((hkeys k).mpr ⟨p, hl, hptid⟩)
                · exact Or.inr hptid.symm
            · intro k g hmem
              rcases List.mem_append.mp hmem with hold | hnewmem
              · obtain ⟨h1, h2⟩ := hlen k g hold
                have hkne : comboKey e ≠ k := by
                  intro hkk
                  exact hnew (hkk ▸ List.mem_map.mpr ⟨(k, g), hold, rfl⟩)
                rw [List.countP_append]
                have : List.countP (fun q => decide (comboKey q.2 = k))
                    [(tid, e)] = 0 := by
                  simp [hkne]
                rw [this]
                simpa using ⟨h1, h2⟩
              · simp only [List.mem_singleton, Prod.mk.injEq] at hnewmem
                obtain ⟨rfl, rfl⟩ := hnewmem
                rw [List.countP_append, hcount0]
                simp
          have hfinal := ih hstep hb
          simpa [List.append_assoc] using hfinal
      · rename_i g0 hlk
        have hg0 : (comboKey e, g0) ∈ acc := alistLookup_mem hlk
        have hkey : comboKey e ∈ acc.map Prod.fst :=
          List.mem_map.mpr ⟨(comboKey e, g0), hg0, rfl⟩
        obtain ⟨hg01, hg02⟩ := hlen (comboKey e) g0 hg0
        split at hb
        · -- fewer than 4 arrival times: the new one is appended
          rename_i hlt
          have hstep :
              GroupsLenInv (processed ++ [(tid, e)]) (alistUpdate (comboKey e)
                { g0 with
                  arrival_times := g0.arrival_times ++ [e.arrival_time]
                  realtime_data := g0.realtime_data ++ [e.realtime_data] }
                acc) := by
            refine ⟨?_, ?_, ?_⟩
            · rw [alistUpdate_map_fst]
              exact hnd
            · intro k
              rw [alistUpdate_map_fst]
              constructor
              · intro hin
                obtain ⟨p, hpmem, hptid⟩ := (hkeys k).mp hin
                exact ⟨p, List.mem_append_left _ hpmem, hptid⟩
              · rintro ⟨p, hpmem, hptid⟩
                rcases List.mem_append.mp hpmem with hl | hr
                · exact (hkeys k).mpr ⟨p, hl, hptid⟩
                · simp only [List.mem_singleton] at hr
                  subst hr
                  exact hptid ▸ hkey
            · intro k g hmem
              rcases (mem_alistUpdate_nodup hnd hkey k g).mp hmem with
                ⟨hne, hold⟩ | ⟨rfl, rfl⟩
              · obtain ⟨h1, h2⟩ := hlen k g hold
                rw [List.countP_append]
                have hkne : ¬ comboKey e = k := fun hkk => hne hkk.symm
                have hz : List.countP (fun q => decide (comboKey q.2 = k))
                    [(tid, e)] = 0 := by
                  simp [hkne]
                rw [hz]
                simpa using ⟨h1, h2⟩
              · rw [List.countP_append]
                have ho : List.countP
                    (fun q => decide (comboKey q.2 = comboKey e))
                    [(tid, e)] = 1 := by simp
                rw [ho]
                constructor
                · simp only [List.length_append, List.length_singleton]
                  omega
                · simp only [List.length_append, List.length_singleton]
                  omega
          have hfinal := ih hstep hb
          simpa [List.append_assoc] using hfinal
        · -- the group already holds 4 arrival times: the trip is dropped
          rename_i hge
          have hstep : GroupsLenInv (processed ++ [(tid, e)]) acc := by
            refine ⟨hnd, ?_, ?_⟩
            · intro k
              constructor
              · intro hin
                obtain ⟨p, hpmem, hptid⟩ := (hkeys k).mp hin
                exact ⟨p, List.mem_append_left _ hpmem, hptid⟩
              · rintro ⟨p, hpmem, hptid⟩
                rcases List.mem_append.mp hpmem with hl | hr
                · exact (hkeys k).mpr ⟨p, hl, hptid⟩
                · simp only [List.mem_singleton] at hr
                  subst hr
                  exact hptid ▸ hkey
            · intro k g hmem
              obtain ⟨h1, h2⟩ := hlen k g hmem
              rw [List.countP_append]
              by_cases hkk : comboKey e = k
              · subst hkk
                have hgg : g = g0 := by
                  have hlk2 := alistLookup_of_mem_nodup hnd hmem
                  rw [hlk] at hlk2
                  exact Option.some.inj hlk2.symm
                subst hgg
                have ho : List.countP
                    (fun q => decide (comboKey q.2 = comboKey e))
                    [(tid, e)] = 1 := by simp
                rw [ho]
                refine ⟨?_, h2⟩
                omega
              · have hz : List.countP (fun q => decide (comboKey q.2 = k))
                    [(tid, e)] = 0 := by simp [hkk]
                rw [hz]
                simpa using ⟨h1, h2⟩
          have hfinal := ih hstep hb
          simpa [List.append_assoc] using hfinal

theorem groupsLenInv_nil : GroupsLenInv [] [] := by
  unfold GroupsLenInv
  refine ⟨by simp, by simp, by simp⟩

/-- C3: every route + direction group (keyed by route_short_name combined
with trip_headsign) returned by get_upcoming_departures holds at most 4
arrival times, its realtime_data list always has the same length as its
arrival_times list, and the stored count is exactly min(number of
deduplicated trips of that group, 4): departures beyond the fourth are
dropped. -/
theorem cap_four_arrival_times (dist : Rat → Rat → Rat → Rat → Rat)
    (fetch : String → List Departure) (stops : List Stop)
    (start : Rat × Rat) (dd : List (String × RouteGroup)) (upd : List Stop)
    (m : List (String × TripEntry))
    (hall : get_next_departures_for_stop_list dist fetch stops start =
      some m)
    (hrun : get_upcoming_departures dist fetch stops start = some (dd, upd))
    (k : String) (g : RouteGroup) (hmem : (k, g) ∈ dd) :
    g.arrival_times.length ≤ 4 ∧
    g.realtime_data.length = g.arrival_times.length ∧
    g.arrival_times.length =
      min (m.countP fun q => decide (comboKey q.2 = k)) 4 := by
  unfold get_upcoming_departures at hrun
  rw [hall] at hrun
  split at hrun
  · exact absurd hrun (by simp)
  · rename_i dd' hb
    have hmd : m = dd' := Option.some.inj hb
    subst hmd
    dsimp only at hrun
    split at hrun
    · exact absurd hrun (by simp)
    · rename_i dd2 hb2
      rw [Option.some.injEq, Prod.mk.injEq] at hrun
      obtain ⟨rfl, -⟩ := hrun
      have hinv := groupsLenInv_run _ groupsLenInv_nil hb2
      rw [List.nil_append] at hinv
      obtain ⟨h1, h2⟩ := hinv.2.2 k g hmem
      have hperm : (m.insertionSort arrLE).countP
          (fun q => decide (comboKey q.2 = k)) =
          m.countP (fun q => decide (comboKey q.2 = k)) :=
        (List.perm_insertionSort arrLE m).countP_eq _
      rw [hperm] at h1
      exact ⟨by omega, h2, h1⟩

theorem groupsSortedInv_run (l : List (String × TripEntry)) :
    ∀ {acc dd : List (String × RouteGroup)},
      l.Pairwise arrLE →
      (∀ k g, (k, g) ∈ acc →
        g.arrival_times.Pairwise
          (fun a b => a.toSeconds ≤ b.toSeconds) ∧
        ∀ t ∈ g.arrival_times, ∀ q ∈ l,
          t.toSeconds ≤ q.2.arrival_time.toSeconds) →
      buildGroups l acc = some dd →
      ∀ k g, (k, g) ∈ dd →
        g.arrival_times.Pairwise (fun a b => a.toSeconds ≤ b.toSeconds) := by
  induction l with
  | nil =>
      intro acc dd _ hinv hb
      simp only [buildGroups, Option.some.injEq] at hb
      subst hb
      exact fun k g h => (hinv k g h).1
  | cons q rest ih =>
      intro acc dd hsorted hinv hb
      obtain ⟨tid, e⟩ := q
      obtain ⟨hhead, htail⟩ := List.pairwise_cons.mp hsorted
      simp only [buildGroups] at hb
      split at hb
      · rename_i hlk
        split at hb
        · exact absurd hb (by simp)
        · rename_i rts hr
          refine ih htail ?_ hb
          intro k g hg
          rcases List.mem_append.mp hg with hold | hnew
          · obtain ⟨hp, hbnd⟩ := hinv k g hold
            exact ⟨hp, fun t ht p hp' =>
              hbnd t ht p (List.mem_cons_of_mem _ hp')⟩
          · simp only [List.mem_singleton, Prod.mk.injEq] at hnew
            obtain ⟨rfl, rfl⟩ := hnew
            refine ⟨by simp, ?_⟩
            intro t ht p hp'
            simp only [List.mem_singleton] at ht
            subst ht
            have := hhead p hp'
            simpa [arrLE] using this
      · rename_i g0 hlk
        split at hb
        · rename_i hlt
          refine ih htail ?_ hb
          intro k g hg
          rcases mem_alistUpdate_weak hg with hold | ⟨rfl, rfl⟩
          · obtain ⟨hp, hbnd⟩ := hinv k g hold
            exact ⟨hp, fun t ht p hp' =>
              hbnd t ht p (List.mem_cons_of_mem _ hp')⟩
          · obtain ⟨hp0, hbnd0⟩ := hinv (comboKey e) g0 (alistLookup_mem hlk)
            constructor
            · rw [List.pairwise_append]
              refine ⟨hp0, by simp, ?_⟩
              intro a ha b hb'
              simp only [List.mem_singleton] at hb'
              subst hb'
              exact hbnd0 a ha (tid, e) (List.mem_cons_self _ _)
            · intro t ht p hp'
              rcases List.mem_append.mp ht with h1 | h2
              · exact hbnd0 t h1 p (List.mem_cons_of_mem _ hp')
              · simp only [List.mem_singleton] at h2
                subst h2
                have := hhead p hp'
                simpa [arrLE] using this
        · rename_i hge
          refine ih htail ?_ hb
          intro k g hg
          obtain ⟨hp, hbnd⟩ := hinv k g hg
          exact ⟨hp, fun t ht p hp' =>
            hbnd t ht p (List.mem_cons_of_mem _ hp')⟩

/-- C4: get_upcoming_departures processes the deduplicated trips in
non-decreasing order of their computed arrival_time, so the arrival_times
list of every route + direction group of its result is sorted in
non-decreasing order, and the first element of each group is that group's
earliest arrival. -/
theorem arrival_times_sorted (dist : Rat → Rat → Rat → Rat → Rat)
    (fetch : String → List Departure) (stops : List Stop)
    (start : Rat × Rat) (dd : List (String × RouteGroup)) (upd : List Stop)
    (hrun : get_upcoming_departures dist fetch stops start = some (dd, upd))
    (k : String) (g : RouteGroup) (hmem : (k, g) ∈ dd) :
    g.arrival_times.Pairwise (fun a b => a.toSeconds ≤ b.toSeconds) ∧
    (∀ h, g.arrival_times.head? = some h →
      ∀ t ∈ g.arrival_times, h.toSeconds ≤ t.toSeconds) := by
  unfold get_upcoming_departures at hrun
  split at hrun
  · exact absurd hrun (by simp)
  · rename_i m hall
    dsimp only at hrun
    split at hrun
    · exact absurd hrun (by simp)
    · rename_i dd2 hb2
      rw [Option.some.injEq, Prod.mk.injEq] at hrun
      obtain ⟨rfl, -⟩ := hrun
      have hsorted : (m.insertionSort arrLE).Pairwise arrLE :=
        List.sorted_insertionSort arrLE m
      have hmain := groupsSortedInv_run _ hsorted (by simp) hb2 k g hmem
      refine ⟨hmain, ?_⟩
      intro h hh t ht
      obtain ⟨tl, hcons⟩ : ∃ tl, g.arrival_times = h :: tl := by
        cases hga : g.arrival_times with
        | nil => rw [hga] at hh; simp at hh
        | cons a tl =>
            rw [hga] at hh
            simp only [List.head?_cons, Option.some.injEq] at hh
            subst hh
            exact ⟨tl, rfl⟩
      rw [hcons] at hmain ht
      obtain ⟨hhd, _⟩ := List.pairwise_cons.mp hmain
      rcases List.mem_cons.mp ht with rfl | htl
      · exact le_refl _
      · exact hhd t htl

/-- C5: the paged display rotates: with more than one page a page-turn timer
tick moves current_page to (current_page + 1) mod total_pages, which always
lies in [0, total_pages), and the display returns to the first page after
the last; with at most one page a tick leaves the state unchanged; and a
data refresh through update_table resets current_page to 0. -/
theorem page_rotation (s : AppState) (n : Nat) :
    (1 < s.total_pages →
      (switch_page s).current_page = (s.current_page + 1) % s.total_pages ∧
      (switch_page s).current_page < s.total_pages ∧
      (s.current_page = s.total_pages - 1 →
        (switch_page s).current_page = 0)) ∧
    (s.total_pages ≤ 1 → switch_page s = s) ∧
    (update_table n s).current_page = 0 := by
  refine ⟨?_, ?_, rfl⟩
  · intro hgt
    unfold switch_page
    rw [if_pos hgt]
    refine ⟨rfl, Nat.mod_lt _ (by omega), ?_⟩
    intro hlast
    simp only
    rw [hlast]
    have : s.total_pages - 1 + 1 = s.total_pages := by omega
    rw [this, Nat.mod_self]
  · intro hle
    unfold switch_page
    rw [if_neg (by omega)]

/-- C7: get_lat_long_from_string_address returns the first lookup result's
latitude and longitude as a pair of numbers, and returns (0.0, 0.0) without
raising when the lookup service returns an empty result list. -/
theorem geocoder_first_result (response_data : List GeoLocation) :
    (response_data = [] →
      get_lat_long_from_string_address response_data = (0, 0)) ∧
    (∀ location rest, response_data = location :: rest →
      get_lat_long_from_string_address response_data =
        (location.lat, location.lon)) := by
  constructor
  · rintro rfl
    rfl
  · rintro location rest rfl
    rfl

/-- C8: for every input string (and any md5 digest of it),
string_to_dark_background_color returns an RGB triple whose three components
all lie in the range [0, 127], so the generated background color is always a
dark shade. -/
theorem dark_background_color (md5_hex : String → List Nat)
    (input_string : String) :
    (string_to_dark_background_color md5_hex input_string).1 ≤ 127 ∧
    (string_to_dark_background_color md5_hex input_string).2.1 ≤ 127 ∧
    (string_to_dark_background_color md5_hex input_string).2.2 ≤ 127 := by
  unfold string_to_dark_background_color
  refine ⟨?_, ?_, ?_⟩ <;> simp <;> omega

/-- C9: get_corrected_datetime keeps the service date and the given hour,
minute and second when the hour is at most 23, and moves to the day after
the service date with the hour taken modulo 24 when the hour exceeds 23
(GTFS after-midnight times roll over to the next day). -/
theorem corrected_datetime_rollover (service_date : Nat) (h m s : Nat)
    (hm : m ≤ 59) (hs : s ≤ 59) :
    (h ≤ 23 → get_corrected_datetime service_date ⟨h, m, s⟩ =
      some ⟨service_date, h, m, s⟩) ∧
    (h > 23 → get_corrected_datetime service_date ⟨h, m, s⟩ =
      some ⟨service_date + 1, h % 24, m, s⟩) := by
  constructor
  · intro hh
    unfold get_corrected_datetime
    simp only [if_neg (show ¬ (⟨h, m, s⟩ : ArrTime).hour > 23 by
      simpa using by omega)]
    rw [if_pos ⟨hm, hs⟩]
  · intro hh
    unfold get_corrected_datetime
    simp only [if_pos (show (⟨h, m, s⟩ : ArrTime).hour > 23 by
      simpa using hh)]
    rw [if_pos ⟨hm, hs⟩]

theorem timeDiffGo_spec (current_time : Int) (realtime_data : List Bool)
    (date_list : List Int) :
    ∀ i, (realtime_data = [] ∨
        date_list.length + i ≤ realtime_data.length) →
      ∃ l, timeDiffGo current_time realtime_data date_list i = some l ∧
        l.length = date_list.length ∧
        ∀ j d, date_list.get? j = some d →
          l.get? j = some (timeEntryString current_time realtime_data
            (i + j) d) := by
  induction date_list with
  | nil =>
      intro i _
      exact ⟨[], rfl, rfl, by simp⟩
  | cons date rest ih =>
      intro i hlen
      have hlen' : realtime_data = [] ∨
          rest.length + (i + 1) ≤ realtime_data.length := by
        rcases hlen with h | h
        · exact Or.inl h
        · right
          simp only [List.length_cons] at h
          omega
      obtain ⟨tail, htail, hlentail, hidx⟩ := ih (i + 1) hlen'
      by_cases hemp : realtime_data = []
      · refine ⟨timeEntryString current_time realtime_data i date :: tail,
          ?_, ?_, ?_⟩
        · simp only [timeDiffGo]
          rw [if_pos (by simp [hemp])]
          rw [htail]
          simp [timeEntryString, hemp]
        · simp [hlentail]
        · intro j d hj
          cases j with
          | zero =>
              simp only [List.get?_cons_zero, Option.some.injEq] at hj
              subst hj
              simp
          | succ j' =>
              simp only [List.get?_cons_succ] at hj ⊢
              rw [hidx j' d hj]
              have harith : i + 1 + j' = i + (j' + 1) := by omega
              rw [harith]
      · have hlt : i < realtime_data.length := by
          rcases hlen with h | h
          · exact absurd h hemp
          · simp only [List.length_cons] at h
            omega
        have hget : realtime_data.get? i =
            some (realtime_data.getD i false) := by
          rw [List.getD_eq_get?]
          cases hx : realtime_data.get? i with
          | none =>
              rw [List.get?_eq_none] at hx
              omega
          | some x => simp
        refine ⟨timeEntryString current_time realtime_data i date :: tail,
          ?_, ?_, ?_⟩
        · simp only [timeDiffGo]
          rw [if_neg (by simpa using hemp)]
          rw [hget, htail]
          simp [timeEntryString]
        · simp [hlentail]
        · intro j d hj
          cases j with
          | zero =>
              simp only [List.get?_cons_zero, Option.some.injEq] at hj
              subst hj
              simp
          | succ j' =>
              simp only [List.get?_cons_succ] at hj ⊢
              rw [hidx j' d hj]
              have harith : i + 1 + j' = i + (j' + 1) := by omega
              rw [harith]

/-- C10: for every list of datetimes and every realtime flag list that is
either empty or at least as long as the datetime list, the later definition
of time_difference_strings (which shadows the earlier one) is total and
returns a list of exactly the same length, whose element i is "Now" exactly
when the truncated whole-minute difference from the current time is 0 and
otherwise shows the absolute minute difference (past times also render as a
positive count), with the realtime marker appended when the corresponding
flag is true. -/
theorem time_difference_strings_spec (current_time : Int)
    (date_list : List Int) (realtime_data : List Bool)
    (hlen : realtime_data = [] ∨
      date_list.length ≤ realtime_data.length) :
    ∃ l, time_difference_strings current_time date_list realtime_data =
        some l ∧
      l.length = date_list.length ∧
      ∀ j d, date_list.get? j = some d →
        l.get? j = some (timeEntryString current_time realtime_data j d) := by
  obtain ⟨l, h1, h2, h3⟩ := timeDiffGo_spec current_time realtime_data
    date_list 0 (by simpa using hlen)
  refine ⟨l, h1, h2, ?_⟩
  intro j d hj
  simpa using h3 j d hj

theorem worker_counter_reaches_zero
    (dist : Rat → Rat → Rat → Rat → Rat) (address_coords : Rat × Rat)
    (env : Nat → WorkerEnv) (t : Nat → WorkerState)
    (hstep : ∀ n, worker_iteration dist (env n) address_coords (t n) =
      some (t (n + 1))) :
    ∀ c n, (t n).update_intervals_to_use_cached_stop_data = c →
      ∃ m, n ≤ m ∧ (t m).update_intervals_to_use_cached_stop_data = 0 := by
  intro c
  induction c with
  | zero => exact fun n hn => ⟨n, le_refl n, hn⟩
  | succ c ih =>
      intro n hn
      have hs := hstep n
      unfold worker_iteration at hs
      split at hs
      · exact absurd hs (by simp)
      · rename_i dd upd
        rw [if_pos (by rw [hn]; omega)] at hs
        have hnext : (t (n + 1)).update_intervals_to_use_cached_stop_data
            = c := by
          have := Option.some.inj hs
          rw [← this]
          simp [hn]
        obtain ⟨m, hm1, hm2⟩ := ih (n + 1) hnext
        exact ⟨m, by omega, hm2⟩

/-- C6: the only feedback between poll iterations is the monitored stop
list: on every successful iteration of the worker loop, while the
cached-stop counter is nonzero the monitored stop list is replaced by
exactly the updated stop list that get_upcoming_departures used for the
displayed departures and the counter decreases by one; when the counter is
zero the list is re-fetched as all nearby stops and the counter is reset to
UPDATE_INTERVALS_TO_USE_CACHED_STOP_DATA (30); hence on every infinite
succeeding run a full refresh recurs forever. -/
theorem worker_loop_spec (dist : Rat → Rat → Rat → Rat → Rat)
    (address_coords : Rat × Rat) :
    (∀ (env : WorkerEnv) (s s' : WorkerState),
      worker_iteration dist env address_coords s = some s' →
      (s.update_intervals_to_use_cached_stop_data ≠ 0 →
        (∃ dd, get_upcoming_departures dist env.fetch s.monitored_stop_list
          address_coords = some (dd, s'.monitored_stop_list)) ∧
        s'.update_intervals_to_use_cached_stop_data =
          s.update_intervals_to_use_cached_stop_data - 1) ∧
      (s.update_intervals_to_use_cached_stop_data = 0 →
        s'.monitored_stop_list = env.nearby ∧
        s'.update_intervals_to_use_cached_stop_data =
          UPDATE_INTERVALS_TO_USE_CACHED_STOP_DATA)) ∧
    (∀ (env : Nat → WorkerEnv) (t : Nat → WorkerState),
      (∀ n, worker_iteration dist (env n) address_coords (t n) =
        some (t (n + 1))) →
      ∀ n, ∃ m, n ≤ m ∧
        (t m).update_intervals_to_use_cached_stop_data = 0) := by
  constructor
  · intro env s s' hs
    unfold worker_iteration at hs
    split at hs
    · exact absurd hs (by simp)
    · rename_i dd upd hgot
      constructor
      · intro hne
        rw [if_pos hne] at hs
        have heq := Option.some.inj hs
        constructor
        · exact ⟨dd, by rw [hgot, ← heq]⟩
        · rw [← heq]
      · intro hzero
        rw [if_neg (by simp [hzero])] at hs
        have heq := Option.some.inj hs
        rw [← heq]
        exact ⟨rfl, rfl⟩
  · intro env t hstep n
    exact worker_counter_reaches_zero dist address_coords env t hstep
      ((t n).update_intervals_to_use_cached_stop_data) n rfl

theorem closest_stop_per_trip_witness :
    (get_next_departures_for_stop_list wDist wFetch [wStopA, wStopB]
      (0, 0) = some [("t1", wEntry)]) ∧
    (wEntry.closest_stop ∈ [wStopA, wStopB] ∧
     wEntry.departure ∈ wFetch wEntry.closest_stop.id ∧
     wEntry.departure.trip_id = "t1" ∧
     (∀ stop ∈ [wStopA, wStopB], ∀ dep ∈ wFetch stop.id,
        dep.trip_id = "t1" →
        distOf wDist (0, 0) wEntry.closest_stop ≤ distOf wDist (0, 0) stop) ∧
     get_corrected_datetime wEntry.departure.service_date
       wEntry.departure.chosenArrival = some wEntry.arrival_time) :=
  ⟨by decide,
   closest_stop_per_trip wDist wFetch [wStopA, wStopB] (0, 0)
     [("t1", wEntry)] "t1" wEntry (by decide) (by decide)
     ⟨(wStopA, wDepA), by decide, (wStopB, wDepB), by decide, by decide⟩⟩

theorem one_entry_per_trip_id_witness :
    ([("t1", wEntry)].map Prod.fst).Nodup ∧
    ∀ tid, tid ∈ [("t1", wEntry)].map Prod.fst ↔
      ∃ stop ∈ [wStopA, wStopB], ∃ dep ∈ wFetch stop.id,
        dep.trip_id = tid :=
  one_entry_per_trip_id wDist wFetch [wStopA, wStopB] (0, 0)
    [("t1", wEntry)] (by decide)

theorem cap_four_arrival_times_witness :
    wGroup.arrival_times.length ≤ 4 ∧
    wGroup.realtime_data.length = wGroup.arrival_times.length ∧
    wGroup.arrival_times.length =
      min ([("t1", wEntry)].countP
        fun q => decide (comboKey q.2 = "17 - Downtown")) 4 :=
  cap_four_arrival_times wDist wFetch [wStopA, wStopB] (0, 0)
    [("17 - Downtown", wGroup)] [wStopB] [("t1", wEntry)] (by decide)
    (by decide) "17 - Downtown" wGroup (by decide)

theorem arrival_times_sorted_witness :
    wGroup.arrival_times.Pairwise
      (fun a b => a.toSeconds ≤ b.toSeconds) ∧
    (∀ h, wGroup.arrival_times.head? = some h →
      ∀ t ∈ wGroup.arrival_times, h.toSeconds ≤ t.toSeconds) :=
  arrival_times_sorted wDist wFetch [wStopA, wStopB] (0, 0)
    [("17 - Downtown", wGroup)] [wStopB] (by decide) "17 - Downtown"
    wGroup (by decide)

theorem page_rotation_witness :
    ((switch_page ⟨2, 3⟩).current_page = (2 + 1) % 3 ∧
      (switch_page ⟨2, 3⟩).current_page < 3 ∧
      (switch_page ⟨2, 3⟩).current_page = 0) ∧
    switch_page ⟨0, 1⟩ = ⟨0, 1⟩ ∧
    (update_table 9 ⟨2, 3⟩).current_page = 0 := by
  refine ⟨?_, ?_, ?_⟩
  · have h := (page_rotation ⟨2, 3⟩ 9).1 (by decide)
    exact ⟨h.1, h.2.1, h.2.2 (by decide)⟩
  · exact (page_rotation ⟨0, 1⟩ 9).2.1 (by decide)
  · exact (page_rotation ⟨2, 3⟩ 9).2.2

theorem wTrace_step (n : Nat) :
    worker_iteration wDist wEnv (0, 0) (wTrace n) = some (wTrace (n + 1)) := by
  have hagg : get_upcoming_departures wDist wEnv.fetch [] (0, 0) =
      some ([], []) := rfl
  unfold worker_iteration
  simp only [wTrace]
  rw [hagg]
  by_cases h : wCounter n = 0
  · simp [h, wCounter, wEnv, UPDATE_INTERVALS_TO_USE_CACHED_STOP_DATA]
  · simp [h, wCounter]

theorem worker_loop_spec_witness :
    ((∃ dd, get_upcoming_departures wDist wEnv.fetch
        (wTrace 0).monitored_stop_list (0, 0) =
        some (dd, (wTrace 1).monitored_stop_list)) ∧
      (wTrace 1).update_intervals_to_use_cached_stop_data =
        (wTrace 0).update_intervals_to_use_cached_stop_data - 1) ∧
    (∃ m, 0 ≤ m ∧ (wTrace m).update_intervals_to_use_cached_stop_data = 0) :=
  ⟨((worker_loop_spec wDist (0, 0)).1 wEnv (wTrace 0) (wTrace 1)
      (wTrace_step 0)).1 (by decide),
   (worker_loop_spec wDist (0, 0)).2 (fun _ => wEnv) wTrace wTrace_step 0⟩

theorem geocoder_first_result_witness :
    (get_lat_long_from_string_address [] = (0, 0)) ∧
    (get_lat_long_from_string_address [⟨1, 2⟩, ⟨3, 4⟩] = (1, 2)) :=
  ⟨(geocoder_first_result []).1 rfl,
   (geocoder_first_result [⟨1, 2⟩, ⟨3, 4⟩]).2 ⟨1, 2⟩ [⟨3, 4⟩] rfl⟩

theorem corrected_datetime_rollover_witness :
    (get_corrected_datetime 10 ⟨7, 30, 0⟩ = some ⟨10, 7, 30, 0⟩) ∧
    (get_corrected_datetime 10 ⟨25, 30, 0⟩ = some ⟨11, 25 % 24, 30, 0⟩) :=
  ⟨(corrected_datetime_rollover 10 7 30 0 (by decide) (by decide)).1
      (by decide),
   (corrected_datetime_rollover 10 25 30 0 (by decide) (by decide)).2
      (by decide)⟩

theorem time_difference_strings_spec_witness :
    ∃ l, time_difference_strings 0 [0, 120, -130] [true, false, true] =
        some l ∧
      l.length = ([0, 120, -130] : List Int).length ∧
      ∀ j d, ([0, 120, -130] : List Int).get? j = some d →
        l.get? j = some (timeEntryString 0 [true, false, true] j d) :=
  time_difference_strings_spec 0 [0, 120, -130] [true, false, true]
    (Or.inr (by decide))
